import Mathlib

/-!
Formal verification of the rotation-search-and-scoring engine of the
`interpretablefa` package (`src/interpretablefa/interpretablefa.py`).

The Python source is shallowly embedded over an arbitrary linear ordered
field `K` (instantiated at `ℚ` for concrete witnesses): floating-point
arrays become functions `ℕ → K` or `List K`, numpy matrices become
`Matrix (Fin T) (Fin T) K`, the `None` markers of the prior matrix become
`Option K`, and fallible computations (division by zero, undefined rank
statistics) return `Option K`.
-/

set_option maxHeartbeats 1000000

open Matrix

variable {K : Type} [LinearOrderedField K]

/-! ### The orthogonal rotation parameterization (`_get_rotation_matrix`) -/

/-- The factor count `T` recovered from the length of the parameter vector,
as computed by `_get_rotation_matrix`:
`num_of_factors = int((-1 + math.sqrt(1 + 8 * len(x))) / 2)`. -/
def num_of_factors (n : ℕ) : ℕ := (Nat.sqrt (1 + 8 * n) - 1) / 2

/-- Position inside `x` of the skew parameter for the strictly upper
triangular cell `(i, j)` (`i < j`): the value of the running counter `ind`
in the fill loop of `_get_rotation_matrix`, which walks the strict upper
triangle row by row. -/
def skew_idx (T i j : ℕ) : ℕ := i * (T - 1) - i * (i - 1) / 2 + (j - i - 1)

/-- The matrix `skew_symmetric_matrix` of `_get_rotation_matrix`: the strict
upper triangle holds the first `T*(T-1)/2` entries of `x`, the strict lower
triangle the negated mirror entries, the diagonal stays zero. -/
def skew_mat (T : ℕ) (x : ℕ → K) : Matrix (Fin T) (Fin T) K :=
  Matrix.of fun i j =>
    if (i : ℕ) < (j : ℕ) then x (skew_idx T i j)
    else if (j : ℕ) < (i : ℕ) then -(x (skew_idx T j i))
    else 0

/-- Number of skew parameters: the value of `ind` when the skew fill loop of
`_get_rotation_matrix` finishes. -/
def num_skew (T : ℕ) : ℕ := T * (T - 1) / 2

/-- The matrix `diag_matrix` of `_get_rotation_matrix`: diagonal entry `i`
is `x[num_skew T + i]` (the loop `for ind_ in range(ind, len(x))`). -/
def diag_mat (T : ℕ) (x : ℕ → K) : Matrix (Fin T) (Fin T) K :=
  Matrix.diagonal fun i => x (num_skew T + (i : ℕ))

/-- Exact matrix inverse `(det A)⁻¹ • adjugate A`, the embedding of
`np.linalg.inv` in exact field arithmetic. -/
def mat_inv {n : Type} [DecidableEq n] [Fintype n] (A : Matrix n n K) : Matrix n n K :=
  (A.det)⁻¹ • A.adjugate

/-- The rotation matrix of `_get_rotation_matrix`:
`R = (I - S) * inv(I + S) * D`. -/
def get_rotation_matrix (T : ℕ) (x : ℕ → K) : Matrix (Fin T) (Fin T) K :=
  ((1 - skew_mat T x) * mat_inv (1 + skew_mat T x)) * diag_mat T x

/-- On a valid-length input `T*(T+1)/2`, the factor count recovered by
`_get_rotation_matrix` is exactly `T`. -/
lemma num_of_factors_valid (T : ℕ) : num_of_factors (T * (T + 1) / 2) = T := by
  unfold num_of_factors
  have h2 : T * (T + 1) / 2 * 2 = T * (T + 1) :=
    Nat.div_mul_cancel (Nat.even_mul_succ_self T).two_dvd
  have h3 : 1 + 8 * (T * (T + 1) / 2) = (2 * T + 1) * (2 * T + 1) := by
    have h4 : 8 * (T * (T + 1) / 2) = 4 * (T * (T + 1)) := by omega
    rw [h4]; ring
  rw [h3, Nat.sqrt_eq]
  omega

lemma skew_mat_transpose (T : ℕ) (x : ℕ → K) : (skew_mat T x)ᵀ = -(skew_mat T x) := by
  ext i j
  simp only [Matrix.transpose_apply, Matrix.neg_apply, skew_mat, Matrix.of_apply]
  by_cases h1 : (i : ℕ) < (j : ℕ)
  · rw [if_neg (by omega), if_pos h1, if_pos h1]
  · by_cases h2 : (j : ℕ) < (i : ℕ)
    · rw [if_pos h2, if_neg h1, if_pos h2, neg_neg]
    · rw [if_neg h2, if_neg h1, if_neg h1, if_neg h2, neg_zero]

lemma dot_skew_self {T : ℕ} (S : Matrix (Fin T) (Fin T) K) (hS : Sᵀ = -S)
    (v : Fin T → K) : Matrix.dotProduct v (S.mulVec v) = 0 := by
  have h3 : Matrix.dotProduct v (S.mulVec v) = -(Matrix.dotProduct v (S.mulVec v)) := by
    calc Matrix.dotProduct v (S.mulVec v)
        = Matrix.dotProduct (S.vecMul v) v := Matrix.dotProduct_mulVec v S v
      _ = Matrix.dotProduct ((Sᵀ).mulVec v) v := by rw [Matrix.mulVec_transpose]
      _ = Matrix.dotProduct ((-S).mulVec v) v := by rw [hS]
      _ = Matrix.dotProduct (-(S.mulVec v)) v := by rw [Matrix.neg_mulVec]
      _ = -(Matrix.dotProduct (S.mulVec v) v) := by rw [Matrix.neg_dotProduct]
      _ = -(Matrix.dotProduct v (S.mulVec v)) := by rw [Matrix.dotProduct_comm]
  linarith

lemma det_one_add_skew_ne_zero {T : ℕ} (S : Matrix (Fin T) (Fin T) K)
    (hS : Sᵀ = -S) : (1 + S).det ≠ 0 := by
  intro hdet
  obtain ⟨v, hv, hmul⟩ := Matrix.exists_mulVec_eq_zero_iff.mpr hdet
  have h1 : v + S.mulVec v = 0 := by
    rw [Matrix.add_mulVec, Matrix.one_mulVec] at hmul
    exact hmul
  have h2 : Matrix.dotProduct v v + Matrix.dotProduct v (S.mulVec v) = 0 := by
    have h3 := congrArg (fun w => Matrix.dotProduct v w) h1
    simpa [Matrix.dotProduct_add] using h3
  rw [dot_skew_self S hS v, add_zero] at h2
  exact hv (Matrix.dotProduct_self_eq_zero.mp h2)

lemma mul_mat_inv {n : Type} [DecidableEq n] [Fintype n] (A : Matrix n n K)
    (h : A.det ≠ 0) : A * mat_inv A = 1 := by
  rw [mat_inv, Matrix.mul_smul, Matrix.mul_adjugate, smul_smul,
    inv_mul_cancel₀ h, one_smul]

lemma mat_inv_mul {n : Type} [DecidableEq n] [Fintype n] (A : Matrix n n K)
    (h : A.det ≠ 0) : mat_inv A * A = 1 := by
  rw [mat_inv, Matrix.smul_mul, Matrix.adjugate_mul, smul_smul,
    inv_mul_cancel₀ h, one_smul]

lemma mat_inv_transpose {n : Type} [DecidableEq n] [Fintype n] (A : Matrix n n K) :
    (mat_inv A)ᵀ = mat_inv Aᵀ := by
  rw [mat_inv, mat_inv, Matrix.transpose_smul, Matrix.adjugate_transpose,
    Matrix.det_transpose]

/-- The Cayley factor `(I - S) * inv(I + S)` is exactly orthogonal for any
skew-symmetric `S`. -/
lemma cayley_orthogonal {T : ℕ} (S : Matrix (Fin T) (Fin T) K) (hS : Sᵀ = -S) :
    ((1 - S) * mat_inv (1 + S))ᵀ * ((1 - S) * mat_inv (1 + S)) = 1 := by
  have hdp : (1 + S).det ≠ 0 := det_one_add_skew_ne_zero S hS
  have hS2 : (-S)ᵀ = -(-S) := by rw [Matrix.transpose_neg, hS, neg_neg]
  have hdm : (1 - S).det ≠ 0 := by
    have h := det_one_add_skew_ne_zero (-S) hS2
    rwa [← sub_eq_add_neg] at h
  have ht1 : (1 - S)ᵀ = 1 + S := by
    rw [Matrix.transpose_sub, Matrix.transpose_one, hS, sub_neg_eq_add]
  have ht2 : (1 + S)ᵀ = 1 - S := by
    rw [Matrix.transpose_add, Matrix.transpose_one, hS, ← sub_eq_add_neg]
  have comm : (1 + S) * (1 - S) = (1 - S) * (1 + S) := by noncomm_ring
  rw [Matrix.transpose_mul, mat_inv_transpose, ht1, ht2]
  have e1 : mat_inv (1 - S) * (1 + S) * ((1 - S) * mat_inv (1 + S))
      = mat_inv (1 - S) * ((1 + S) * ((1 - S) * mat_inv (1 + S))) := by
    simp only [Matrix.mul_assoc]
  have e2 : (1 + S) * ((1 - S) * mat_inv (1 + S))
      = (1 - S) * ((1 + S) * mat_inv (1 + S)) := by
    rw [← Matrix.mul_assoc, comm, Matrix.mul_assoc]
  rw [e1, e2, mul_mat_inv _ hdp, Matrix.mul_one, mat_inv_mul _ hdm]

/-- A diagonal matrix with `±1` entries is orthogonal. -/
lemma diag_orthogonal {T : ℕ} (d : Fin T → K) (hd : ∀ i, d i = 1 ∨ d i = -1) :
    (Matrix.diagonal d)ᵀ * Matrix.diagonal d = 1 := by
  rw [Matrix.diagonal_transpose, Matrix.diagonal_mul_diagonal]
  have h1 : (fun i => d i * d i) = fun _ : Fin T => (1 : K) := by
    funext i
    rcases hd i with h | h <;> rw [h] <;> norm_num
  rw [h1, Matrix.diagonal_one]

/-- Orthogonality of the full parameterization when the diagonal parameters
are `±1`. -/
lemma rotation_orthogonal (T : ℕ) (x : ℕ → K)
    (hd : ∀ i : Fin T, x (num_skew T + (i : ℕ)) = 1 ∨ x (num_skew T + (i : ℕ)) = -1) :
    (get_rotation_matrix T x)ᵀ * get_rotation_matrix T x = 1 := by
  unfold get_rotation_matrix
  set C := (1 - skew_mat T x) * mat_inv (1 + skew_mat T x) with hC
  have hCo : Cᵀ * C = 1 := cayley_orthogonal (skew_mat T x) (skew_mat_transpose T x)
  rw [Matrix.transpose_mul]
  have assoc : (diag_mat T x)ᵀ * Cᵀ * (C * diag_mat T x)
      = (diag_mat T x)ᵀ * (Cᵀ * C * diag_mat T x) := by
    simp only [Matrix.mul_assoc]
  rw [assoc, hCo, Matrix.one_mul]
  unfold diag_mat
  exact diag_orthogonal _ hd

lemma skew_mat_dim_one (x : ℕ → K) : skew_mat 1 x = 0 := by
  ext i j
  have hi : (i : ℕ) = 0 := by omega
  have hj : (j : ℕ) = 0 := by omega
  simp [skew_mat, hi, hj]

/-- For a single factor the parameterization reduces to the `1×1` diagonal
matrix holding the lone entry of `x`. -/
lemma get_rotation_matrix_dim_one (x : ℕ → K) :
    get_rotation_matrix 1 x = Matrix.diagonal (fun _ => x 0) := by
  unfold get_rotation_matrix
  rw [skew_mat_dim_one, sub_zero, add_zero]
  have h1 : mat_inv (1 : Matrix (Fin 1) (Fin 1) K) = 1 := by
    rw [mat_inv, Matrix.det_one, Matrix.adjugate_one, inv_one, one_smul]
  rw [h1, Matrix.mul_one, Matrix.one_mul]
  have h2 : (fun i : Fin 1 => x (num_skew 1 + (i : ℕ))) = fun _ : Fin 1 => x 0 := by
    funext i
    have hi : (i : ℕ) = 0 := by omega
    rw [hi]
    norm_num [num_skew]
  rw [diag_mat, h2]

/-! ### Claims C1 and C2: orthogonality of the parameterization -/

/-- C1 (amended): for every parameter vector whose last `T` (diagonal)
entries are `±1`, the matrix returned by `_get_rotation_matrix` satisfies
`Rᵀ * R = 1` exactly (hence within any floating tolerance); for `T = 1` the
parameterization accepts a length-1 vector (the recovered factor count of a
length-1 input is 1) and returns only `[[1]]` or `[[-1]]`. -/
theorem c1_parameterization_orthogonal (T : ℕ) (x : ℕ → K)
    (hd : ∀ i, i < T → x (num_skew T + i) = 1 ∨ x (num_skew T + i) = -1) :
    (get_rotation_matrix T x)ᵀ * get_rotation_matrix T x = 1 ∧
      (T = 1 → get_rotation_matrix 1 x = 1 ∨ get_rotation_matrix 1 x = -1) ∧
      num_of_factors 1 = 1 := by
  refine ⟨rotation_orthogonal T x (fun i => hd (i : ℕ) i.isLt), ?_, ?_⟩
  · intro hT
    subst hT
    rw [get_rotation_matrix_dim_one]
    have h0 := hd 0 (by norm_num)
    rw [num_skew] at h0
    norm_num at h0
    rcases h0 with h | h
    · left
      rw [h, Matrix.diagonal_one]
    · right
      rw [h]
      have hneg : (fun _ : Fin 1 => (-1 : K)) = fun i : Fin 1 => -(1 : K) := rfl
      rw [hneg, ← Matrix.diagonal_neg, Matrix.diagonal_one]
  · have h9 : (1 : ℕ) * (1 + 1) / 2 = 1 := by norm_num
    have := num_of_factors_valid 1
    rwa [h9] at this

/-- Concrete parameter vector `[-1]` (a single `±1` diagonal entry). -/
def x_neg_one : ℕ → ℚ := fun _ => -1

theorem c1_witness :
    ((get_rotation_matrix 1 x_neg_one)ᵀ * get_rotation_matrix 1 x_neg_one = 1) ∧
      (get_rotation_matrix 1 x_neg_one = 1 ∨ get_rotation_matrix 1 x_neg_one = -1) := by
  have h := c1_parameterization_orthogonal 1 x_neg_one
    (by intro i hi; right; rfl)
  exact ⟨h.1, h.2.1 rfl⟩

/-- Concrete parameter vector `[1/2]`: a valid length-1 input (`T = 1`)
whose diagonal entry is not `±1`. -/
def x_half : ℕ → ℚ := fun _ => 1 / 2

/-- C1 as literally stated is false: `_get_rotation_matrix` applied to the
valid length-1 vector `[0.5]` returns `[[0.5]]`, which is neither `[[1.0]]`
nor `[[-1.0]]`, and `Rᵀ * R` has entry `1/4`, not orthogonal within any
tolerance `ε < 3/4`. -/
theorem c1_counterexample :
    get_rotation_matrix 1 x_half 0 0 = 1 / 2 ∧
      ((get_rotation_matrix 1 x_half)ᵀ * get_rotation_matrix 1 x_half) 0 0 = 1 / 4 ∧
      get_rotation_matrix 1 x_half ≠ 1 ∧
      get_rotation_matrix 1 x_half ≠ -1 ∧
      (get_rotation_matrix 1 x_half)ᵀ * get_rotation_matrix 1 x_half ≠ 1 := by
  have h := get_rotation_matrix_dim_one (K := ℚ) x_half
  have hx : x_half 0 = 1 / 2 := rfl
  have hprod : (get_rotation_matrix 1 x_half)ᵀ * get_rotation_matrix 1 x_half
      = Matrix.diagonal (fun _ : Fin 1 => (1 / 4 : ℚ)) := by
    rw [h, Matrix.diagonal_transpose, Matrix.diagonal_mul_diagonal]
    funext i
    rw [hx]
    norm_num
  refine ⟨?_, ?_, ?_, ?_, ?_⟩
  · rw [h, Matrix.diagonal_apply_eq, hx]
  · rw [hprod, Matrix.diagonal_apply_eq]
  · intro heq
    have h00 := congrArg (fun M => M 0 0) heq
    rw [h] at h00
    simp only [Matrix.diagonal_apply_eq, Matrix.one_apply_eq, hx] at h00
    norm_num at h00
  · intro heq
    have h00 := congrArg (fun M => M 0 0) heq
    rw [h] at h00
    simp only [Matrix.diagonal_apply_eq, Matrix.neg_apply, Matrix.one_apply_eq, hx] at h00
    norm_num at h00
  · intro heq
    have h00 := congrArg (fun M => M 0 0) heq
    rw [hprod] at h00
    simp only [Matrix.diagonal_apply_eq, Matrix.one_apply_eq] at h00
    norm_num at h00

/-- C2: for every factor count `T` and every parameter vector `x`, the
matrix `I + S` inverted by `_get_rotation_matrix` is invertible
(`det (I + S) ≠ 0`), and whenever the last `T` entries of `x` are each `±1`
the returned matrix `R = (I - S) (I + S)⁻¹ D` satisfies `Rᵀ * R = 1` in
exact arithmetic. -/
theorem c2_rotation_exactly_orthogonal (T : ℕ) (x : ℕ → K) :
    (1 + skew_mat T x).det ≠ 0 ∧
      ((∀ i, i < T → x (num_skew T + i) = 1 ∨ x (num_skew T + i) = -1) →
        (get_rotation_matrix T x)ᵀ * get_rotation_matrix T x = 1) :=
  ⟨det_one_add_skew_ne_zero (skew_mat T x) (skew_mat_transpose T x),
    fun hd => rotation_orthogonal T x (fun i => hd (i : ℕ) i.isLt)⟩

/-- Concrete parameter vector for `T = 2`: skew entry `1/3`, diagonal
entries `1` and `-1`. -/
def x_c2 : ℕ → ℚ := fun n => if n = 0 then 1 / 3 else if n = 1 then 1 else -1

theorem c2_witness :
    (1 + skew_mat 2 x_c2).det ≠ 0 ∧
      (get_rotation_matrix 2 x_c2)ᵀ * get_rotation_matrix 2 x_c2 = 1 :=
  ⟨(c2_rotation_exactly_orthogonal 2 x_c2).1,
    (c2_rotation_exactly_orthogonal 2 x_c2).2 (by
      intro i hi
      interval_cases i
      · left; rfl
      · right; rfl)⟩

/-! ### The selection tournament of `_rotate_factors` (claims C3, C4, C5)

`_rotate_factors` computes three scores — `none_ind` (the model as fit, no
rotation), `pre_ind` (best of the predefined catalog), and `opt_ind` (the
free-form optimizer result, left at its initial sentinel `-1` when
`max_time <= 0` skips the optimizer block) — then commits the candidate at
`inds.index(max(inds))` over `inds = [none_ind, pre_ind, opt_ind]`. The
three index values are carried as parameters; the list/selection logic of
lines 579-620 is embedded verbatim. -/

/-- First index of `v` in `l`, the embedding of Python's `list.index`
(which returns the first position comparing equal). -/
def idx_of [DecidableEq K] (v : K) : List K → ℕ
  | [] => 0
  | a :: rest => if a = v then 0 else idx_of v rest + 1

/-- Python's `max` over a nonempty list: left fold of the binary maximum. -/
def py_max (l : List K) : K := l.foldl max (l.headD 0)

/-- The score list `inds = [none_ind, pre_ind, opt_ind]` of
`_rotate_factors`: `opt_ind` keeps its initial value `-1` unless
`max_time > 0` let the optimizer block run. -/
def rotate_inds (none_ind pre_ind opt_ind max_time : K) : List K :=
  [none_ind, pre_ind, if 0 < max_time then opt_ind else -1]

/-- The winning family index `best = inds.index(max(inds))`
(0 = no rotation, 1 = predefined, 2 = free-form). -/
def rotate_best (none_ind pre_ind opt_ind max_time : K) : ℕ :=
  idx_of (py_max (rotate_inds none_ind pre_ind opt_ind max_time))
    (rotate_inds none_ind pre_ind opt_ind max_time)

/-- The score of the candidate committed by `_rotate_factors`: entry `best`
of the score list (the committed model state is the family whose score sits
at that position). -/
def rotate_committed_score (none_ind pre_ind opt_ind max_time : K) : K :=
  (rotate_inds none_ind pre_ind opt_ind max_time).getD
    (rotate_best none_ind pre_ind opt_ind max_time) 0

/-- Modelled from the spec: a run in which the free-form candidate family
is disabled outright — only the no-rotation and predefined families
compete, with the same first-index-of-maximum selection. -/
def rotate_best_disabled (none_ind pre_ind : K) : ℕ :=
  idx_of (py_max [none_ind, pre_ind]) [none_ind, pre_ind]

/-- Modelled from the spec: the committed score of the free-form-disabled
run. -/
def rotate_committed_score_disabled (none_ind pre_ind : K) : K :=
  [none_ind, pre_ind].getD (rotate_best_disabled none_ind pre_ind) 0

lemma py_max_three (a b c : K) : py_max [a, b, c] = max (max a b) c := by
  simp [py_max, max_self]

lemma py_max_two (a b : K) : py_max [a, b] = max a b := by
  simp [py_max, max_self]

lemma rotate_best_pos (a b c t : K) (ht : 0 < t) :
    rotate_best a b c t = idx_of (max (max a b) c) [a, b, c] := by
  rw [rotate_best, rotate_inds, if_pos ht, py_max_three]

lemma idx_of_max_three (a b c : K) :
    [a, b, c].getD (idx_of (max (max a b) c) [a, b, c]) 0 = max (max a b) c := by
  set m := max (max a b) c with hm
  have hmem : a = m ∨ b = m ∨ c = m := by
    rcases max_choice (max a b) c with h1 | h1
    · rcases max_choice a b with h2 | h2
      · left; rw [hm, h1, h2]
      · right; left; rw [hm, h1, h2]
    · right; right; rw [hm, h1]
  by_cases ha : a = m
  · simp [idx_of, ha]
  · by_cases hb : b = m
    · simp [idx_of, ha, hb]
    · rcases hmem with h | h | h
      · exact absurd h ha
      · exact absurd h hb
      · simp [idx_of, ha, hb, h]

/-- C3: the tournament is monotonic — for any index values and any positive
search budget, the committed score is at least the no-rotation score. -/
theorem c3_tournament_monotonic (none_ind pre_ind opt_ind max_time : K)
    (ht : 0 < max_time) :
    none_ind ≤ rotate_committed_score none_ind pre_ind opt_ind max_time := by
  rw [rotate_committed_score, rotate_best_pos _ _ _ _ ht, rotate_inds, if_pos ht,
    idx_of_max_three]
  exact le_trans (le_max_left _ _) (le_max_left _ _)

theorem c3_witness :
    (0 : ℚ) < 300 ∧ (1 / 2 : ℚ) ≤ rotate_committed_score (1 / 2) (3 / 4) (2 / 3) 300 :=
  ⟨by norm_num, c3_tournament_monotonic (1 / 2 : ℚ) (3 / 4) (2 / 3) 300 (by norm_num)⟩

/-- C4: a zero or negative `max_time` skips the free-form optimizer block
(`opt_ind` stays at the `-1` sentinel) and the tournament commits the same
winning family and the same winning score as a run with the free-form
family disabled outright; the winner is drawn only from
{no-rotation (0), predefined (1)}. The hypothesis `0 ≤ none_ind` records
that the no-rotation score is an agreement/overall index value, which is
always nonnegative in exact arithmetic. -/
theorem c4_nonpositive_budget_equals_disabled (none_ind pre_ind opt_ind max_time : K)
    (ht : max_time ≤ 0) (hn : 0 ≤ none_ind) :
    rotate_best none_ind pre_ind opt_ind max_time
        = rotate_best_disabled none_ind pre_ind ∧
      rotate_committed_score none_ind pre_ind opt_ind max_time
        = rotate_committed_score_disabled none_ind pre_ind ∧
      rotate_best none_ind pre_ind opt_ind max_time ≤ 1 := by
  have ht' : ¬ (0 : K) < max_time := not_lt.mpr ht
  have hmax : py_max (rotate_inds none_ind pre_ind opt_ind max_time)
      = max none_ind pre_ind := by
    rw [rotate_inds, if_neg ht', py_max_three]
    exact max_eq_left (le_trans (by linarith) (le_max_left none_ind pre_ind))
  rw [rotate_committed_score, rotate_committed_score_disabled, rotate_best,
    rotate_best_disabled, hmax, py_max_two, rotate_inds, if_neg ht']
  set m := max none_ind pre_ind with hm
  by_cases hA : none_ind = m
  · refine ⟨?_, ?_, ?_⟩ <;> simp [idx_of, hA]
  · have hB : pre_ind = m := by
      rcases max_choice none_ind pre_ind with h | h
      · exact absurd h.symm hA
      · exact h.symm
    refine ⟨?_, ?_, ?_⟩ <;> simp [idx_of, hA, hB]

theorem c4_witness :
    ((0 : ℚ) ≤ 0 ∧ (0 : ℚ) ≤ 1 / 2) ∧
      rotate_best (1 / 2 : ℚ) (3 / 4) (9 / 10) 0 = rotate_best_disabled (1 / 2 : ℚ) (3 / 4) ∧
      rotate_committed_score (1 / 2 : ℚ) (3 / 4) (9 / 10) 0
        = rotate_committed_score_disabled (1 / 2 : ℚ) (3 / 4) ∧
      rotate_best (1 / 2 : ℚ) (3 / 4) (9 / 10) 0 ≤ 1 :=
  ⟨⟨by norm_num, by norm_num⟩,
    c4_nonpositive_budget_equals_disabled (1 / 2 : ℚ) (3 / 4) (9 / 10) 0
      (by norm_num) (by norm_num)⟩

/-- C5: the tournament winner is the first index of the maximum over the
score list `[none_ind, pre_ind, opt_ind]` — on exact ties, the family
earliest in evaluation order (no-rotation, then predefined, then
free-form) wins. -/
theorem c5_ties_first_index_of_maximum (a b c t : K) (ht : 0 < t) :
    (rotate_best a b c t = 0 ↔ b ≤ a ∧ c ≤ a) ∧
      (rotate_best a b c t = 1 ↔ a < b ∧ c ≤ b) ∧
      (rotate_best a b c t = 2 ↔ a < c ∧ b < c) := by
  rw [rotate_best_pos a b c t ht]
  set m := max (max a b) c with hm
  have haa : a ≤ m := le_trans (le_max_left a b) (le_max_left _ _)
  have hba : b ≤ m := le_trans (le_max_right a b) (le_max_left _ _)
  have hca : c ≤ m := le_max_right _ _
  have hmem : a = m ∨ b = m ∨ c = m := by
    rcases max_choice (max a b) c with h1 | h1
    · rcases max_choice a b with h2 | h2
      · left; rw [hm, h1, h2]
      · right; left; rw [hm, h1, h2]
    · right; right; rw [hm, h1]
  have idx0 : idx_of m [a, b, c] = 0 ↔ a = m := by
    by_cases h : a = m <;> simp [idx_of, h]
  have idx1 : idx_of m [a, b, c] = 1 ↔ ¬a = m ∧ b = m := by
    by_cases h : a = m
    · simp [idx_of, h]
    · by_cases h2 : b = m <;> simp [idx_of, h, h2]
  have idx2 : idx_of m [a, b, c] = 2 ↔ ¬a = m ∧ ¬b = m := by
    by_cases h : a = m
    · simp [idx_of, h]
    · by_cases h2 : b = m
      · simp [idx_of, h, h2]
      · rcases hmem with h3 | h3 | h3
        · exact absurd h3 h
        · exact absurd h3 h2
        · simp [idx_of, h, h2, h3]
  refine ⟨?_, ?_, ?_⟩
  · rw [idx0]
    constructor
    · intro h
      exact ⟨by rw [h]; exact hba, by rw [h]; exact hca⟩
    · rintro ⟨h1, h2⟩
      rw [hm, max_eq_left h1, max_eq_left h2]
  · rw [idx1]
    constructor
    · rintro ⟨h1, h2⟩
      have hab : a ≤ b := by rw [h2]; exact haa
      refine ⟨lt_of_le_of_ne hab (fun he => h1 (by rw [he]; exact h2)), ?_⟩
      rw [h2]; exact hca
    · rintro ⟨h1, h2⟩
      have hbm : b = m := by rw [hm, max_eq_right h1.le, max_eq_left h2]
      exact ⟨fun he => (ne_of_lt h1) (he.trans hbm.symm), hbm⟩
  · rw [idx2]
    constructor
    · rintro ⟨h1, h2⟩
      rcases hmem with h3 | h3 | h3
      · exact absurd h3 h1
      · exact absurd h3 h2
      · have hac : a ≤ c := by rw [h3]; exact haa
        have hbc : b ≤ c := by rw [h3]; exact hba
        exact ⟨lt_of_le_of_ne hac (fun he => h1 (by rw [he]; exact h3)),
          lt_of_le_of_ne hbc (fun he => h2 (by rw [he]; exact h3))⟩
    · rintro ⟨h1, h2⟩
      have hcm : c = m := by
        rw [hm, max_eq_right (max_le h1.le h2.le)]
      exact ⟨fun he => (ne_of_lt h1) (he.trans hcm.symm),
        fun he => (ne_of_lt h2) (he.trans hcm.symm)⟩

theorem c5_witness :
    (0 : ℚ) < 1 ∧ rotate_best (1 : ℚ) 1 1 1 = 0 :=
  ⟨by norm_num,
    (c5_ties_first_index_of_maximum (1 : ℚ) 1 1 1 (by norm_num)).1.mpr
      ⟨by norm_num, by norm_num⟩⟩

/-! ### Constrained pairs, the multiset, and the agreement index
(claims C6, C7, C8) -/

/-- The ordered list of strictly-upper-triangular index pairs `(i, j)`,
`i < j < P`, in the row-major order of the nested loops
`for i in range(P): for j in range(i + 1, P)` shared by
`calculate_correlation_ranking_similarity`, `generate_multiset`,
`_get_agreement`, and the pairwise loops of the H-index. -/
def pair_list (P : ℕ) : List (ℕ × ℕ) :=
  (List.range P).flatMap fun i => (List.range' (i + 1) (P - (i + 1))).map fun j => (i, j)

lemma mem_pair_list (P : ℕ) (p : ℕ × ℕ) : p ∈ pair_list P ↔ p.1 < p.2 ∧ p.2 < P := by
  rcases p with ⟨i, j⟩
  simp only [pair_list, List.mem_flatMap, List.mem_map, List.mem_range, List.mem_range'_1]
  constructor
  · rintro ⟨a, ha, j', hj', heq⟩
    obtain ⟨h1, h2⟩ := Prod.mk.injEq a j' i j ▸ heq
    subst h1
    subst h2
    exact ⟨by omega, by omega⟩
  · rintro ⟨h1, h2⟩
    exact ⟨i, by omega, ⟨j, by omega, rfl⟩⟩

lemma pair_list_ordered (P : ℕ) : ∀ p ∈ pair_list P, p.1 < p.2 :=
  fun p hp => ((mem_pair_list P p).mp hp).1

lemma pair_list_zero : pair_list 0 = [] := by
  simp [pair_list]

lemma pair_list_one : pair_list 1 = [] := by
  simp [pair_list]

/-- Sign of a value, used for the concordant-minus-discordant pair count. -/
def sgn (a : K) : K := if 0 < a then 1 else if a < 0 then -1 else 0

/-- Modelled from the spec: the concordant-minus-discordant count `P - Q`
of the external `scipy.stats.kendalltau` collaborator, as a sum of sign
products over unordered index pairs. -/
def con_minus_dis (x y : List K) : K :=
  ((pair_list x.length).map fun p =>
    sgn (x.getD p.2 0 - x.getD p.1 0) * sgn (y.getD p.2 0 - y.getD p.1 0)).sum

/-- Modelled from the spec: the tied-pair count (`sum t*(t-1)/2` over tie
groups) of a sequence, used by the τ-b normalization. -/
def tied_pairs (x : List K) : ℕ :=
  ((pair_list x.length).filter fun p => decide (x.getD p.1 0 = x.getD p.2 0)).length

/-- Modelled from the spec: the external collaborator `scipy.stats.kendalltau`
(Kendall's τ-b, the "tie-aware rank correlation coefficient in [-1,1]").
The statistic is undefined (`none`, mirroring the collaborator's NaN)
exactly when either input sequence has zero variance — every pair tied —
which covers empty and length-1 input; otherwise it is
`(P - Q) / sqrt(n0 - n1) / sqrt(n0 - n2)`, with the square root abstracted
as a parameter `sq` so the embedding stays inside the field `K`. -/
def kendalltau_b (sq : K → K) (x y : List K) : Option K :=
  if tied_pairs x = x.length * (x.length - 1) / 2 ∨
      tied_pairs y = y.length * (y.length - 1) / 2 then none
  else some (con_minus_dis x y
    / sq ((x.length * (x.length - 1) / 2 : ℕ) - (tied_pairs x : K))
    / sq ((y.length * (y.length - 1) / 2 : ℕ) - (tied_pairs y : K)))

lemma tied_pairs_nil : tied_pairs ([] : List K) = 0 := by
  simp [tied_pairs, pair_list]

lemma kendalltau_b_nil (sq : K → K) : kendalltau_b sq ([] : List K) [] = none := by
  rw [kendalltau_b, if_pos]
  left
  rw [tied_pairs_nil]
  simp

/-- The multiset of `generate_multiset`: walking the unordered pairs
`i < j`, a pair `(prior[i,j], similarity[i,j])` is appended exactly when
`prior[i, j] is not None`. The similarity values are carried as an
abstract function `sim` (the entries of the correlation ranking similarity
matrix). -/
def generate_multiset {α : Type} (P : ℕ) (prior : ℕ → ℕ → Option K)
    (sim : ℕ → ℕ → α) : List (K × α) :=
  (pair_list P).foldl (fun ms p =>
    match prior p.1 p.2 with
    | none => ms
    | some pr => ms ++ [(pr, sim p.1 p.2)]) []

/-- The two lists `a` (prior values) and `b` (similarity values)
accumulated by the loop of `_get_agreement` over the same pairs, with the
same `is not None` guard. -/
def get_agreement_lists {α : Type} (P : ℕ) (prior : ℕ → ℕ → Option K)
    (sim : ℕ → ℕ → α) : List K × List α :=
  (pair_list P).foldl (fun ab p =>
    match prior p.1 p.2 with
    | none => ab
    | some pr => (ab.1 ++ [pr], ab.2 ++ [sim p.1 p.2])) ([], [])

omit [LinearOrderedField K] in
lemma generate_multiset_fold {α : Type} (prior : ℕ → ℕ → Option K)
    (sim : ℕ → ℕ → α) (l : List (ℕ × ℕ)) :
    ∀ init : List (K × α),
      l.foldl (fun ms p =>
        match prior p.1 p.2 with
        | none => ms
        | some pr => ms ++ [(pr, sim p.1 p.2)]) init
      = init ++ l.filterMap (fun p => (prior p.1 p.2).map fun pr => (pr, sim p.1 p.2)) := by
  induction l with
  | nil => intro init; simp
  | cons p rest ih =>
    intro init
    rw [List.foldl_cons, List.filterMap_cons]
    cases hp : prior p.1 p.2 with
    | none => simp only [hp, Option.map_none']; rw [ih init]
    | some pr =>
      simp only [hp, Option.map_some']
      rw [ih (init ++ [(pr, sim p.1 p.2)])]
      simp

omit [LinearOrderedField K] in
lemma generate_multiset_eq {α : Type} (P : ℕ) (prior : ℕ → ℕ → Option K)
    (sim : ℕ → ℕ → α) :
    generate_multiset P prior sim
      = (pair_list P).filterMap (fun p => (prior p.1 p.2).map fun pr => (pr, sim p.1 p.2)) := by
  rw [generate_multiset, generate_multiset_fold]
  simp

omit [LinearOrderedField K] in
lemma get_agreement_lists_fold {α : Type} (prior : ℕ → ℕ → Option K)
    (sim : ℕ → ℕ → α) (l : List (ℕ × ℕ)) :
    ∀ init : List K × List α,
      l.foldl (fun ab p =>
        match prior p.1 p.2 with
        | none => ab
        | some pr => (ab.1 ++ [pr], ab.2 ++ [sim p.1 p.2])) init
      = (init.1 ++ (l.filterMap (fun p => (prior p.1 p.2).map fun pr => (pr, sim p.1 p.2))).map Prod.fst,
         init.2 ++ (l.filterMap (fun p => (prior p.1 p.2).map fun pr => (pr, sim p.1 p.2))).map Prod.snd) := by
  induction l with
  | nil => intro init; simp
  | cons p rest ih =>
    intro init
    rw [List.foldl_cons, List.filterMap_cons]
    cases hp : prior p.1 p.2 with
    | none => simp only [hp, Option.map_none']; rw [ih init]
    | some pr =>
      simp only [hp, Option.map_some']
      rw [ih (init.1 ++ [pr], init.2 ++ [sim p.1 p.2])]
      simp

omit [LinearOrderedField K] in
/-- C6: prior cells marked `None` are excluded, and never defaulted to
zero, in both consumers: the multiset of `generate_multiset` consists of
exactly the pairs `(prior[i,j], sim[i,j])` over unordered pairs `i < j`
with a constrained (non-`None`) prior cell, and the `a`/`b` lists
aggregated by the optimizer objective `_get_agreement` are exactly the
first and second projections of that same multiset (the same constrained
pairs). -/
theorem c6_none_prior_cells_excluded {α : Type} (P : ℕ)
    (prior : ℕ → ℕ → Option K) (sim : ℕ → ℕ → α) :
    (∀ pr s, (pr, s) ∈ generate_multiset P prior sim ↔
        ∃ i j, i < j ∧ j < P ∧ prior i j = some pr ∧ sim i j = s) ∧
      (get_agreement_lists P prior sim).1 = (generate_multiset P prior sim).map Prod.fst ∧
      (get_agreement_lists P prior sim).2 = (generate_multiset P prior sim).map Prod.snd := by
  refine ⟨?_, ?_, ?_⟩
  · intro pr s
    rw [generate_multiset_eq]
    constructor
    · intro h
      obtain ⟨p, hp, hf⟩ := List.mem_filterMap.mp h
      obtain ⟨pr', hpr, heq⟩ := Option.map_eq_some'.mp hf
      obtain ⟨he1, he2⟩ := Prod.mk.injEq pr' (sim p.1 p.2) pr s ▸ heq
      obtain ⟨h1, h2⟩ := (mem_pair_list P p).mp hp
      exact ⟨p.1, p.2, h1, h2, by rw [hpr, he1], he2⟩
    · rintro ⟨i, j, hij, hjP, hpr, hs⟩
      refine List.mem_filterMap.mpr ⟨(i, j), (mem_pair_list P (i, j)).mpr ⟨hij, hjP⟩, ?_⟩
      rw [hpr, Option.map_some', hs]
  · rw [get_agreement_lists, get_agreement_lists_fold, generate_multiset_eq]
    simp
  · rw [get_agreement_lists, get_agreement_lists_fold, generate_multiset_eq]
    simp

/-- Concrete prior over three variables: pair (0,1) constrained to `1`,
pairs (0,2) and (1,2) unconstrained. -/
def prior_c6 : ℕ → ℕ → Option ℚ :=
  fun i j => if i = 0 ∧ j = 1 then some 1 else none

theorem c6_witness :
    (1, (7 : ℚ)) ∈ generate_multiset 3 prior_c6 (fun i j => (i + j : ℚ) + 6) ∧
      (get_agreement_lists 3 prior_c6 (fun i j => (i + j : ℚ) + 6)).1
        = (generate_multiset 3 prior_c6 (fun i j => (i + j : ℚ) + 6)).map Prod.fst :=
  ⟨((c6_none_prior_cells_excluded 3 prior_c6 (fun i j => (i + j : ℚ) + 6)).1 1 7).mpr
      ⟨0, 1, by norm_num, by norm_num, by norm_num [prior_c6], by norm_num⟩,
    (c6_none_prior_cells_excluded 3 prior_c6 (fun i j => (i + j : ℚ) + 6)).2.1⟩

/-- The aggregate statistic of `calculate_agreement_index`: the Kendall
τ-b between the prior column and the similarity column of the multiset,
rescaled through `(τ + 1) / 2`; `none` models the NaN produced when the
statistic is undefined. -/
def calculate_agreement_index (sq : K → K) (P : ℕ) (prior : ℕ → ℕ → Option K)
    (sim : ℕ → ℕ → K) : Option K :=
  (kendalltau_b sq ((generate_multiset P prior sim).map Prod.fst)
    ((generate_multiset P prior sim).map Prod.snd)).map fun t => (t + 1) / 2

/-- C7: when every off-diagonal prior cell carries the no-constraint
marker, the multiset is empty and the aggregate rank-correlation statistic
of `calculate_agreement_index` is not computable (`none`), never a default
numeric value. -/
theorem c7_empty_multiset_not_computable (sq : K → K) (P : ℕ)
    (prior : ℕ → ℕ → Option K) (sim : ℕ → ℕ → K)
    (hp : ∀ i j, i < j → j < P → prior i j = none) :
    generate_multiset P prior sim = [] ∧
      calculate_agreement_index sq P prior sim = none := by
  have hms : generate_multiset P prior sim = [] := by
    rw [generate_multiset_eq]
    refine List.filterMap_eq_nil_iff.mpr ?_
    intro p hmem
    obtain ⟨h1, h2⟩ := (mem_pair_list P p).mp hmem
    rw [hp p.1 p.2 h1 h2, Option.map_none']
  refine ⟨hms, ?_⟩
  rw [calculate_agreement_index, hms]
  simp only [List.map_nil]
  rw [kendalltau_b_nil, Option.map_none']

/-- Concrete 3×3 prior whose off-diagonal cells are all `None`. -/
def prior_c7 : ℕ → ℕ → Option ℚ := fun i j => if i = j then some 1 else none

theorem c7_witness :
    generate_multiset 3 prior_c7 (fun _ _ => (0 : ℚ)) = [] ∧
      calculate_agreement_index id 3 prior_c7 (fun _ _ => (0 : ℚ)) = none :=
  c7_empty_multiset_not_computable id 3 prior_c7 (fun _ _ => (0 : ℚ))
    (fun i j hij _ => by
      simp only [prior_c7]
      rw [if_neg (by omega)])

/-! ### The correlation ranking similarity matrix (claim C8) -/

/-- Row `i` of absolute variable-factor correlations
(`correlations = pd.DataFrame(...).abs()`, then `list(correlations.loc[i, :])`). -/
def abs_row (T : ℕ) (corr : ℕ → ℕ → K) (i : ℕ) : List K :=
  (List.range T).map fun t => |corr i t|

/-- The similarity value written for the unordered pair `(i, j)`:
`(1/2) * (kendalltau(row_i, row_j, variant to b).statistic + 1)`. -/
def row_sim_val (sq : K → K) (T : ℕ) (corr : ℕ → ℕ → K) (i j : ℕ) : Option K :=
  (kendalltau_b sq (abs_row T corr i) (abs_row T corr j)).map fun t => (t + 1) / 2

/-- One iteration of the fill loop of
`calculate_correlation_ranking_similarity`: the two assignments
`M[i, j] = val` and `M[j, i] = val`. -/
def sim_update (M : ℕ → ℕ → Option K) (p : ℕ × ℕ) (v : Option K) : ℕ → ℕ → Option K :=
  fun a b => if (a = p.1 ∧ b = p.2) ∨ (a = p.2 ∧ b = p.1) then v else M a b

/-- The matrix built by `calculate_correlation_ranking_similarity`: start
from `np.ones(...)` and, for every unordered pair `i < j`, overwrite both
`(i, j)` and `(j, i)` with the pair's rank-concordance similarity. -/
def correlation_ranking_similarity (sq : K → K) (P T : ℕ) (corr : ℕ → ℕ → K) :
    ℕ → ℕ → Option K :=
  (pair_list P).foldl (fun M p => sim_update M p (row_sim_val sq T corr p.1 p.2))
    (fun _ _ => some 1)

omit [LinearOrderedField K] in
lemma sim_update_symm (M : ℕ → ℕ → Option K) (p : ℕ × ℕ) (v : Option K)
    (hM : ∀ a b, M a b = M b a) : ∀ a b, sim_update M p v a b = sim_update M p v b a := by
  intro a b
  unfold sim_update
  by_cases h : (a = p.1 ∧ b = p.2) ∨ (a = p.2 ∧ b = p.1)
  · rw [if_pos h, if_pos (by tauto)]
  · rw [if_neg h, if_neg (by tauto), hM]

omit [LinearOrderedField K] in
lemma sim_fold_symm (f : ℕ × ℕ → Option K) (l : List (ℕ × ℕ)) :
    ∀ M : ℕ → ℕ → Option K, (∀ a b, M a b = M b a) →
      ∀ a b, l.foldl (fun M p => sim_update M p (f p)) M a b
        = l.foldl (fun M p => sim_update M p (f p)) M b a := by
  induction l with
  | nil => intro M hM a b; exact hM a b
  | cons p rest ih =>
    intro M hM a b
    simp only [List.foldl_cons]
    exact ih _ (sim_update_symm M p (f p) hM) a b

omit [LinearOrderedField K] in
lemma sim_update_diag (M : ℕ → ℕ → Option K) (p : ℕ × ℕ) (v : Option K)
    (hp : p.1 ≠ p.2) (i : ℕ) : sim_update M p v i i = M i i := by
  unfold sim_update
  rw [if_neg]
  rintro (⟨h1, h2⟩ | ⟨h1, h2⟩) <;> exact hp (by rw [← h1, ← h2])

omit [LinearOrderedField K] in
lemma sim_fold_diag (f : ℕ × ℕ → Option K) (l : List (ℕ × ℕ))
    (hord : ∀ p ∈ l, p.1 ≠ p.2) :
    ∀ (M : ℕ → ℕ → Option K) (i : ℕ),
      l.foldl (fun M p => sim_update M p (f p)) M i i = M i i := by
  induction l with
  | nil => intro M i; rfl
  | cons p rest ih =>
    intro M i
    rw [List.foldl_cons]
    rw [ih (fun q hq => hord q (List.mem_cons_of_mem p hq)) _ i]
    exact sim_update_diag M p (f p) (hord p (List.mem_cons_self p rest)) i

omit [LinearOrderedField K] in
lemma sim_update_ne (M : ℕ → ℕ → Option K) (p : ℕ × ℕ) (v : Option K)
    (i j : ℕ) (hij : i < j) (hp : p.1 < p.2) (hne : p ≠ (i, j)) :
    sim_update M p v i j = M i j := by
  rcases p with ⟨p1, p2⟩
  unfold sim_update
  rw [if_neg]
  rintro (⟨h1, h2⟩ | ⟨h1, h2⟩)
  · exact hne (by simp at h1 h2; rw [h1, h2])
  · simp at h1 h2 hp
    omega

omit [LinearOrderedField K] in
lemma sim_fold_ne (f : ℕ × ℕ → Option K) (l : List (ℕ × ℕ)) (i j : ℕ)
    (hij : i < j) :
    (∀ p ∈ l, p.1 < p.2) → (i, j) ∉ l →
      ∀ M : ℕ → ℕ → Option K,
        l.foldl (fun M p => sim_update M p (f p)) M i j = M i j := by
  induction l with
  | nil => intro _ _ M; rfl
  | cons p rest ih =>
    intro hord hnm M
    rw [List.foldl_cons]
    rw [ih (fun q hq => hord q (List.mem_cons_of_mem p hq))
      (fun h => hnm (List.mem_cons_of_mem p h)) _]
    exact sim_update_ne M p (f p) i j hij (hord p (List.mem_cons_self p rest))
      (fun h => hnm (h ▸ List.mem_cons_self p rest))

omit [LinearOrderedField K] in
lemma sim_fold_mem (f : ℕ × ℕ → Option K) (l : List (ℕ × ℕ)) (i j : ℕ)
    (hij : i < j) :
    (∀ p ∈ l, p.1 < p.2) → (i, j) ∈ l →
      ∀ M : ℕ → ℕ → Option K,
        l.foldl (fun M p => sim_update M p (f p)) M i j = f (i, j) := by
  induction l with
  | nil => intro _ h; exact absurd h (List.not_mem_nil _)
  | cons p rest ih =>
    intro hord hmem M
    rw [List.foldl_cons]
    by_cases hmr : (i, j) ∈ rest
    · exact ih (fun q hq => hord q (List.mem_cons_of_mem p hq)) hmr _
    · have hp : p = (i, j) := by
        rcases List.mem_cons.mp hmem with h | h
        · exact h.symm
        · exact absurd h hmr
      rw [sim_fold_ne f rest i j hij
        (fun q hq => hord q (List.mem_cons_of_mem p hq)) hmr _]
      rw [hp]
      unfold sim_update
      rw [if_pos (Or.inl ⟨rfl, rfl⟩)]

/-- C8: the matrix produced by `calculate_correlation_ranking_similarity`
is symmetric, its diagonal entries are all `1` (the `np.ones`
initialization is never overwritten on the diagonal), and every
off-diagonal entry for a pair `i < j < P` is `(τ + 1) / 2` of the Kendall
τ-b between the two rows of absolute variable-factor correlations. -/
theorem c8_similarity_symmetric_unit_diagonal (sq : K → K) (P T : ℕ)
    (corr : ℕ → ℕ → K) :
    (∀ i j, correlation_ranking_similarity sq P T corr i j
        = correlation_ranking_similarity sq P T corr j i) ∧
      (∀ i, correlation_ranking_similarity sq P T corr i i = some 1) ∧
      (∀ i j, i < j → j < P → correlation_ranking_similarity sq P T corr i j
        = (kendalltau_b sq (abs_row T corr i) (abs_row T corr j)).map
            fun t => (t + 1) / 2) := by
  refine ⟨?_, ?_, ?_⟩
  · intro i j
    exact sim_fold_symm (fun p => row_sim_val sq T corr p.1 p.2) (pair_list P)
      (fun _ _ => some 1) (fun _ _ => rfl) i j
  · intro i
    exact sim_fold_diag (fun p => row_sim_val sq T corr p.1 p.2) (pair_list P)
      (fun p hp => Nat.ne_of_lt (pair_list_ordered P p hp)) (fun _ _ => some 1) i
  · intro i j hij hjP
    exact sim_fold_mem (fun p => row_sim_val sq T corr p.1 p.2) (pair_list P) i j
      hij (pair_list_ordered P) ((mem_pair_list P (i, j)).mpr ⟨hij, hjP⟩)
      (fun _ _ => some 1)

theorem c8_witness :
    correlation_ranking_similarity id 2 2 (fun i j => (i : ℚ) - j) 0 1
        = correlation_ranking_similarity id 2 2 (fun i j => (i : ℚ) - j) 1 0 ∧
      correlation_ranking_similarity id 2 2 (fun i j => (i : ℚ) - j) 1 1 = some 1 ∧
      correlation_ranking_similarity id 2 2 (fun i j => (i : ℚ) - j) 0 1
        = (kendalltau_b id (abs_row 2 (fun i j => (i : ℚ) - j) 0)
            (abs_row 2 (fun i j => (i : ℚ) - j) 1)).map fun t => (t + 1) / 2 :=
  ⟨(c8_similarity_symmetric_unit_diagonal id 2 2 (fun i j => (i : ℚ) - j)).1 0 1,
    (c8_similarity_symmetric_unit_diagonal id 2 2 (fun i j => (i : ℚ) - j)).2.1 1,
    (c8_similarity_symmetric_unit_diagonal id 2 2 (fun i j => (i : ℚ) - j)).2.2 0 1
      (by norm_num) (by norm_num)⟩

/-! ### Argument dispatch of `select_factor_model` (claim C9) -/

/-- The `models` argument of `select_factor_model`: a Python string or a
list of model names. -/
inductive ModelsArg where
  | str (s : String)
  | list (names : List String)
deriving DecidableEq

/-- Outcome of the argument validation at the top of
`select_factor_model`: raise `ValueError`, raise `TypeError`, or proceed
to summarize and rank the given models. -/
inductive SelectOutcome where
  | valueError
  | typeError
  | proceeds (names : List String)
deriving DecidableEq

/-- The validation chain of `select_factor_model`:
`if models == "all"` proceeds on all stored models;
`elif not (isinstance(models, list) and set(models).issubset(self.models.keys()))`
raises `ValueError`; the remaining `else` branch — reached exactly by the
lists that are valid subsets of the stored names — raises `TypeError`. -/
def select_factor_model_dispatch (stored : List String) : ModelsArg → SelectOutcome
  | ModelsArg.str s =>
      if s = "all" then SelectOutcome.proceeds stored else SelectOutcome.valueError
  | ModelsArg.list ms =>
      if ¬ (ms.all fun m => stored.contains m) then SelectOutcome.valueError
      else SelectOutcome.typeError

/-- C9: every list argument makes `select_factor_model` raise before any
model is summarized — `TypeError` when the list is a subset of the stored
names, `ValueError` otherwise — and only the string `'all'` reaches the
evaluate-and-rank path. -/
theorem c9_list_models_always_raise (stored : List String) :
    (∀ ms, select_factor_model_dispatch stored (ModelsArg.list ms)
        = if ms.all (fun m => stored.contains m) then SelectOutcome.typeError
          else SelectOutcome.valueError) ∧
      (∀ arg names,
        select_factor_model_dispatch stored arg = SelectOutcome.proceeds names →
          arg = ModelsArg.str "all") := by
  constructor
  · intro ms
    simp only [select_factor_model_dispatch]
    cases h : (ms.all fun m => stored.contains m) with
    | true => simp
    | false => simp
  · intro arg names h
    cases arg with
    | str s =>
      by_cases hs : s = "all"
      · rw [hs]
      · rw [select_factor_model_dispatch, if_neg hs] at h
        exact absurd h (by simp)
    | list ms =>
      simp only [select_factor_model_dispatch] at h
      cases hm : (ms.all fun m => stored.contains m) with
      | true =>
        rw [hm] at h
        simp at h
      | false =>
        rw [hm] at h
        simp at h

theorem c9_witness :
    select_factor_model_dispatch ["m1", "m2"] (ModelsArg.list ["m1"])
        = (if (["m1"].all fun m => ["m1", "m2"].contains m)
            then SelectOutcome.typeError else SelectOutcome.valueError) ∧
      ModelsArg.str "all" = ModelsArg.str "all" :=
  ⟨(c9_list_models_always_raise ["m1", "m2"]).1 ["m1"],
    (c9_list_models_always_raise ["m1", "m2"]).2 (ModelsArg.str "all") ["m1", "m2"]
      (by rfl)⟩

/-! ### The horizontal index (claim C10) -/

/-- The H-index computation shared by `calculate_horizontal_index` and
`_get_horizontal`: a pairwise sum over factor pairs of angular deviations
(`abs(np.arccos(...) - math.pi / 2)`, abstracted as `angle i j` since it is
transcendental), then `1 - (4 / (math.pi * t * (t - 1))) * sum`. The
constant `math.pi` is the parameter `piK`; the division is fallible —
`none` models Python's `ZeroDivisionError` when the denominator
`pi * t * (t - 1)` is zero. -/
def calculate_horizontal_index (piK : K) (T : ℕ) (angle : ℕ → ℕ → K) : Option K :=
  if piK * (T : K) * ((T : K) - 1) = 0 then none
  else some (1 - 4 / (piK * (T : K) * ((T : K) - 1))
    * (((pair_list T).map fun p => angle p.1 p.2).sum))

/-- C10: for a single-factor model (`T = 1`) the rescaling factor
`4 / (pi * T * (T - 1))` of the H-index divides by zero, so
`calculate_horizontal_index` raises (`none`) and never returns an H-index
value, for any value of `pi` and any central-meaning angles; moreover the
pairwise sum over factor pairs is empty (`pair_list 1 = []`). -/
theorem c10_single_factor_division_by_zero (piK : K) (angle : ℕ → ℕ → K) :
    calculate_horizontal_index piK 1 angle = none ∧ pair_list 1 = [] := by
  refine ⟨?_, pair_list_one⟩
  rw [calculate_horizontal_index, if_pos]
  norm_num
